import Mathlib

/-!
# Verification of the `merks` Merkle-tree library

Shallow embedding of the TypeScript sources:

* `src/index.ts` — the primary `MerkleTree` class storing `_leaves : Buffer[]`
  and `_tree : Buffer[][]`, with `getProof`, static `verifyProof`, `toJSON`,
  `fromJSON`, `getLeaf`, and the `root`/`leafCount`/`depth` accessors.
* `src/utils/index.ts` — `validateSerializedTree`, `createParentNode`.
* `src/core/MerkleTree.ts` — the node-based variant whose `buildTree` honours
  the `sortPairs` option via `createParentNode`.
* `src/utils/hash.ts` — hash-function plug-in point; the enumerated algorithm
  `"none"` is the identity function on buffers.

Buffers are modelled as lists of bytes (`Fin 256`), hash functions as total
functions `Bytes → Bytes` (the injected hash is an opaque external
collaborator; the claims hold for every such function, in particular for the
default SHA-256).  JavaScript `number` indices are modelled as rationals so
that the `Number.isInteger` check is representable.  Thrown `MerkleTreeError`s
are modelled as an `Except` error type with one constructor per throw site.
-/

/-- A byte, as stored in a Node `Buffer` cell. -/
abbrev Byte := Fin 256

/-- A Node `Buffer`: a finite sequence of bytes. -/
abbrev Bytes := List Byte

/-- `HashFunction` from `src/types/index.ts`: `(data: Buffer) => Buffer`. -/
abbrev HashFn := Bytes → Bytes

/-- `createHashFunction("none")` from `src/utils/hash.ts`: the identity on
buffers.  Used to instantiate theorems at concrete inputs. -/
def idHash : HashFn := fun data => data

/-- A simple custom hash function (the plug-in contract is any deterministic
`bytes -> bytes`): a one-byte digest summing all bytes mod 256.  Its digests
are never empty, like every fixed positive-length digest. -/
def oneByteHash : HashFn := fun data => [data.foldl (· + ·) 0]

/-- One constructor per `MerkleTreeError` throw site relevant to the claims.
The spec groups `indexNotInteger` ("Index must be an integer") and
`indexOutOfBounds` ("Leaf index ... out of bounds ...") under the single
error kind `IndexOutOfRange` (spec §7). -/
inductive MerkleError where
  | emptyInput
  | indexNotInteger
  | indexOutOfBounds
  | invalidProofSibling
  | invalidProofPosition
  | malformedSerialization (msg : String)
  deriving DecidableEq

/-- The spec-level `IndexOutOfRange` error kind covers both an out-of-bounds
index and a non-integer index (spec §7). -/
def MerkleError.isIndexOutOfRange : MerkleError → Bool
  | .indexNotInteger => true
  | .indexOutOfBounds => true
  | _ => false

/-- The spec-level `InvalidProof` error kind: structurally malformed proof
step. -/
def MerkleError.isInvalidProof : MerkleError → Bool
  | .invalidProofSibling => true
  | .invalidProofPosition => true
  | _ => false

/-- `ProofItem` from `src/types/index.ts`: `{ sibling: Buffer; position:
"left" | "right" }`.  The position field is a string in the source, and
`verifyProof` checks it dynamically, so it is a `String` here too. -/
structure ProofItem where
  sibling : Bytes
  position : String
  deriving DecidableEq

/-- A proof item as seen by the dynamically-typed `verifyProof` entry point:
the sibling slot may hold a value that is not a `Buffer` (modelled `none`),
and the position may be any string. -/
structure RawProofItem where
  sibling : Option Bytes
  position : String
  deriving DecidableEq

/-- A structurally well-typed item, viewed as a dynamic value. -/
def ProofItem.toRaw (p : ProofItem) : RawProofItem :=
  ⟨some p.sibling, p.position⟩

/-- The payload of a dynamic item (meaningful when it is well-formed). -/
def RawProofItem.strip (it : RawProofItem) : ProofItem :=
  ⟨it.sibling.getD [], it.position⟩

/-- The structural validity check performed on each step by `verifyProof`:
the sibling is a `Buffer` and the position is exactly "left" or "right". -/
def wellFormedRaw (it : RawProofItem) : Bool :=
  it.sibling.isSome && (decide (it.position = "left") || decide (it.position = "right"))

/-! ## Level construction

The body of the `while` loop shared by `_buildTree` (src/index.ts) and
`buildTree` (src/core/MerkleTree.ts): walk the current level two nodes at a
time; a trailing unpaired node is paired with itself.  The combining function
is `hash(left ++ right)` in `index.ts` and `createParentNode` in the core
variant. -/

def pairUp (combine : Bytes → Bytes → Bytes) : List Bytes → List Bytes
  | [] => []
  | [a] => [combine a a]
  | a :: b :: rest => combine a b :: pairUp combine rest

theorem pairUp_length (combine : Bytes → Bytes → Bytes) :
    ∀ l : List Bytes, (pairUp combine l).length = (l.length + 1) / 2
  | [] => by simp [pairUp]
  | [_] => by simp [pairUp]
  | _ :: _ :: rest => by
    simp only [pairUp, List.length_cons, pairUp_length combine rest]
    omega

theorem pairUp_getD (combine : Bytes → Bytes → Bytes) :
    ∀ (l : List Bytes) (k : Nat),
      (2 * k + 1 < l.length →
        (pairUp combine l).getD k [] = combine (l.getD (2 * k) []) (l.getD (2 * k + 1) [])) ∧
      (2 * k + 1 = l.length →
        (pairUp combine l).getD k [] = combine (l.getD (2 * k) []) (l.getD (2 * k) []))
  | [], k => by
    refine ⟨fun h => ?_, fun h => ?_⟩ <;> simp only [List.length_nil] at h <;> omega
  | [a], k => by
    match k with
    | 0 =>
      refine ⟨fun h => ?_, fun _ => by simp [pairUp]⟩
      simp only [List.length_singleton] at h
      omega
    | k + 1 =>
      refine ⟨fun h => ?_, fun h => ?_⟩ <;> simp only [List.length_singleton] at h <;> omega
  | a :: b :: rest, k => by
    match k with
    | 0 => exact ⟨fun _ => rfl, by intro h; simp at h⟩
    | k + 1 =>
      have ih := pairUp_getD combine rest k
      constructor
      · intro h
        have h' : 2 * k + 1 < rest.length := by simp at h; omega
        have e1 : 2 * (k + 1) = 2 * k + 2 := by omega
        simpa [pairUp, e1, List.getD_cons_succ] using ih.1 h'
      · intro h
        have h' : 2 * k + 1 = rest.length := by simp at h; omega
        have e1 : 2 * (k + 1) = 2 * k + 2 := by omega
        simpa [pairUp, e1, List.getD_cons_succ] using ih.2 h'

theorem pairUp_mem (combine : Bytes → Bytes → Bytes) :
    ∀ (l : List Bytes) (x : Bytes), x ∈ pairUp combine l → ∃ a b, x = combine a b
  | [], x, hx => by simp [pairUp] at hx
  | [a], x, hx => by
    simp [pairUp] at hx
    exact ⟨a, a, hx⟩
  | a :: b :: rest, x, hx => by
    simp only [pairUp, List.mem_cons] at hx
    rcases hx with h | h
    · exact ⟨a, b, h⟩
    · exact pairUp_mem combine rest x h

/-- Fuel-indexed form of the `while (level.length > 1)` loop building the
upper levels: returns the list of levels strictly above the starting level.
The fuel (the starting length suffices) only makes the recursion structural;
`levelsFrom_eq` below recovers the loop equation. -/
def levelsFromFuel (combine : Bytes → Bytes → Bytes) : Nat → List Bytes → List (List Bytes)
  | 0, _ => []
  | fuel + 1, level =>
    if 1 < level.length then
      pairUp combine level :: levelsFromFuel combine fuel (pairUp combine level)
    else []

/-- All levels strictly above `level`, as pushed by the `while` loop of
`_buildTree`. -/
def levelsFrom (combine : Bytes → Bytes → Bytes) (level : List Bytes) : List (List Bytes) :=
  levelsFromFuel combine level.length level

theorem levelsFromFuel_congr (combine : Bytes → Bytes → Bytes) :
    ∀ (fuel₁ fuel₂ : Nat) (l : List Bytes), l.length ≤ fuel₁ → l.length ≤ fuel₂ →
      levelsFromFuel combine fuel₁ l = levelsFromFuel combine fuel₂ l
  | 0, 0, _, _, _ => rfl
  | 0, _ + 1, l, h₁, _ => by
    have : l.length = 0 := by omega
    simp [levelsFromFuel, this]
  | _ + 1, 0, l, _, h₂ => by
    have : l.length = 0 := by omega
    simp [levelsFromFuel, this]
  | fuel₁ + 1, fuel₂ + 1, l, h₁, h₂ => by
    simp only [levelsFromFuel]
    split
    · have hlen : (pairUp combine l).length = (l.length + 1) / 2 := pairUp_length combine l
      have := levelsFromFuel_congr combine fuel₁ fuel₂ (pairUp combine l)
        (by omega) (by omega)
      rw [this]
    · rfl

/-- The loop equation of `_buildTree`: while the level has more than one
node, push the paired-up level and continue from it. -/
theorem levelsFrom_eq (combine : Bytes → Bytes → Bytes) (level : List Bytes) :
    levelsFrom combine level =
      if 1 < level.length then
        pairUp combine level :: levelsFrom combine (pairUp combine level)
      else [] := by
  unfold levelsFrom
  by_cases hlen : 1 < level.length
  · rw [if_pos hlen]
    obtain ⟨n, hn⟩ : ∃ n, level.length = n + 1 := ⟨level.length - 1, by omega⟩
    conv_lhs => rw [hn]
    simp only [levelsFromFuel]
    rw [if_pos hlen]
    congr 1
    exact levelsFromFuel_congr combine n (pairUp combine level).length (pairUp combine level)
      (by have := pairUp_length combine level; omega) le_rfl
  · rw [if_neg hlen]
    rcases Nat.lt_or_ge level.length 1 with h0 | h1
    · have hz : level.length = 0 := by omega
      rw [hz]
      rfl
    · have ho : level.length = 1 := by omega
      rw [ho]
      simp [levelsFromFuel, hlen]

/-! ## The chain invariant

`Chain combine levels` says: each level of `levels` after the first is the
paired-up image of its predecessor, and the final level has at most one node
(the loop exit condition). -/

inductive Chain (combine : Bytes → Bytes → Bytes) : List (List Bytes) → Prop where
  | single (l : List Bytes) (h : l.length ≤ 1) : Chain combine [l]
  | step (l : List Bytes) (rest : List (List Bytes)) (h : 1 < l.length)
      (hrest : Chain combine rest) (hhead : rest.head? = some (pairUp combine l)) :
      Chain combine (l :: rest)

theorem chain_levelsFrom (combine : Bytes → Bytes → Bytes) (l : List Bytes) :
    Chain combine (l :: levelsFrom combine l) := by
  rw [levelsFrom_eq]
  by_cases h : 1 < l.length
  · rw [if_pos h]
    exact Chain.step l _ h (chain_levelsFrom combine (pairUp combine l)) rfl
  · rw [if_neg h]
    exact Chain.single l (by omega)
termination_by l.length
decreasing_by
  have := pairUp_length combine l
  omega

theorem Chain.length_pos {combine : Bytes → Bytes → Bytes} {levels : List (List Bytes)}
    (hch : Chain combine levels) : 0 < levels.length := by
  cases hch <;> simp

theorem Chain.getD_succ {combine : Bytes → Bytes → Bytes} {levels : List (List Bytes)}
    (hch : Chain combine levels) :
    ∀ i : Nat, i + 1 < levels.length →
      levels.getD (i + 1) [] = pairUp combine (levels.getD i []) := by
  induction hch with
  | single l h => intro i hi; simp at hi
  | step l rest h hrest hhead ih =>
    intro i hi
    match rest, hhead with
    | p :: rest', hhead =>
      have hp : p = pairUp combine l := by simpa using hhead
      match i with
      | 0 => simpa using hp
      | i + 1 =>
        have hi' : i + 1 < (p :: rest').length := by
          simp only [List.length_cons] at hi ⊢
          omega
        simpa using ih i hi'

theorem Chain.getLast_singleton {combine : Bytes → Bytes → Bytes} {levels : List (List Bytes)}
    (hch : Chain combine levels) :
    ∀ first, levels.head? = some first → first ≠ [] →
      ∃ r, levels.getLast? = some [r] := by
  induction hch with
  | single l h =>
    intro first hfirst hne
    have hl : l = first := by simpa using hfirst
    subst hl
    match l, h, hne with
    | [a], _, _ => exact ⟨a, rfl⟩
  | step l rest h hrest hhead ih =>
    intro first hfirst hne
    match rest, hhead with
    | p :: rest', hhead =>
      have hp : p = pairUp combine l := by simpa using hhead
      have hpne : p ≠ [] := by
        have := pairUp_length combine l
        intro hnil
        rw [hnil] at hp
        have : (pairUp combine l).length = (l.length + 1) / 2 := pairUp_length combine l
        rw [← hp] at this
        simp at this
        omega
      obtain ⟨r, hr⟩ := ih p rfl hpne
      exact ⟨r, by rw [List.getLast?_cons_cons]; exact hr⟩

/-! ## The `MerkleTree` class of `src/index.ts` -/

/-- State of a `MerkleTree` instance: `_leaves` (the leaf hashes), `_tree`
(all levels, `_tree[0] == _leaves`), and the configured hash function. -/
structure MerkleTree where
  leaves : List Bytes
  tree : List (List Bytes)
  hashFn : HashFn

/-- The constructor of `src/index.ts`.  The `sortPairs` argument mirrors the
`sortPairs` field of `MerkleTreeOptions` (src/types/index.ts): the
constructor accepts it but its body never reads it — only the
`core/MerkleTree.ts` variant does.  Hash-algorithm selection is modelled by
the `hashFn` argument; an empty leaves array throws ("Leaves must be a
non-empty array"). -/
def MerkleTree.ofLeaves (hashFn : HashFn) (_sortPairs : Bool) (rawLeaves : List Bytes) :
    Except MerkleError MerkleTree :=
  if rawLeaves.length = 0 then .error .emptyInput
  else
    let leafHashes := rawLeaves.map hashFn
    .ok ⟨leafHashes, leafHashes :: levelsFrom (fun a b => hashFn (a ++ b)) leafHashes, hashFn⟩

/-- `get leafCount()`. -/
def MerkleTree.leafCount (t : MerkleTree) : Nat := t.leaves.length

/-- `get depth()`: the number of levels. -/
def MerkleTree.depth (t : MerkleTree) : Nat := t.tree.length

/-- `get root()`: `this._tree[this._tree.length - 1][0]`.  JavaScript
indexing past the end yields `undefined`, modelled as `none`. -/
def MerkleTree.root (t : MerkleTree) : Option Bytes :=
  (t.tree.getD (t.tree.length - 1) []).get? 0

/-- `getLeaf(index)`: integer check, bounds check, then `this._leaves[index]`.
The JavaScript `number` argument is modelled as a rational; `Number.isInteger`
is the check that the denominator is 1. -/
def MerkleTree.getLeaf (t : MerkleTree) (index : ℚ) : Except MerkleError Bytes :=
  if index.den ≠ 1 then .error .indexNotInteger
  else if index.num < 0 ∨ (t.leaves.length : Int) ≤ index.num then .error .indexOutOfBounds
  else .ok (t.leaves.getD index.num.toNat [])

/-- One iteration of the proof loop of `getProof`: read the sibling
(`currentLevel[siblingIndex] || currentLevel[idx]` — the fallback duplicates
the node itself when the sibling index is past the end of an odd level) and
record which side it is on. -/
def proofStep (currentLevel : List Bytes) (idx : Nat) : ProofItem :=
  let isRightNode := idx % 2 == 1
  let siblingIndex := if isRightNode then idx - 1 else idx + 1
  ⟨currentLevel.getD siblingIndex (currentLevel.getD idx []),
    if isRightNode then "left" else "right"⟩

/-- The loop of `getProof`: one step per stored level except the last,
advancing to the parent index `idx / 2`. -/
def proofWalk : List (List Bytes) → Nat → List ProofItem
  | [], _ => []
  | [_], _ => []
  | lvl :: next :: rest, idx => proofStep lvl idx :: proofWalk (next :: rest) (idx / 2)

/-- `getProof(index)`: integer check ("Index must be an integer"), bounds
check ("Leaf index ... out of bounds ..."), then the proof loop over the
stored levels. -/
def MerkleTree.getProof (t : MerkleTree) (index : ℚ) : Except MerkleError (List ProofItem) :=
  if index.den ≠ 1 then .error .indexNotInteger
  else if index.num < 0 ∨ (t.leaves.length : Int) ≤ index.num then .error .indexOutOfBounds
  else .ok (proofWalk t.tree index.num.toNat)

/-! ## `verifyProof` (static, src/index.ts) -/

/-- The `reduce` body of `verifyProof`, in source order: reject a non-Buffer
sibling, reject a position that is neither "left" nor "right", then hash
`sibling ++ current` for "left" and `current ++ sibling` for "right".  A
thrown error aborts the whole fold ("fail fast"); the outer catch rethrows
it, keeping the `InvalidProof` category. -/
def verifyFold (hashFn : HashFn) (computedHash : Bytes) :
    List RawProofItem → Except MerkleError Bytes
  | [] => .ok computedHash
  | item :: rest =>
    match item.sibling with
    | none => .error .invalidProofSibling
    | some sib =>
      if item.position ≠ "left" ∧ item.position ≠ "right" then .error .invalidProofPosition
      else if item.position = "left" then
        verifyFold hashFn (hashFn (sib ++ computedHash)) rest
      else
        verifyFold hashFn (hashFn (computedHash ++ sib)) rest

/-- `MerkleTree.verifyProof(leafHash, proof, root, hashFn)`: fold the proof
from the leaf hash and compare the result with the claimed root by
byte-for-byte equality (`Buffer.equals`). -/
def MerkleTree.verifyProof (leafHash : Bytes) (proof : List RawProofItem) (root : Bytes)
    (hashFn : HashFn) : Except MerkleError Bool :=
  (verifyFold hashFn leafHash proof).map fun final => decide (final = root)

/-- The root recomputation described by the proof semantics: combine the
running hash with one sibling according to its recorded side. -/
def applyStep (hashFn : HashFn) (current : Bytes) (item : ProofItem) : Bytes :=
  if item.position = "left" then hashFn (item.sibling ++ current)
  else hashFn (current ++ item.sibling)

/-- Folding all proof steps from an initial hash. -/
def foldSteps (hashFn : HashFn) (current : Bytes) : List ProofItem → Bytes
  | [] => current
  | item :: rest => foldSteps hashFn (applyStep hashFn current item) rest

/-! ## Hex codec (Buffer.toString("hex") / Buffer.from(h, "hex")) -/

/-- The lowercase hex character of a nibble value: a decimal digit for
values below 10 (character codes from 48, the code of the zero digit),
a lowercase letter for 10..15 (codes from 97, the code of the letter a). -/
def nibbleToChar (n : Nat) : Char :=
  Char.ofNat (if n % 16 < 10 then 48 + n % 16 else 87 + n % 16)

/-- The two lowercase hex characters of one byte (`Buffer.toString("hex")`
renders each byte high nibble first). -/
def byteToHex (b : Byte) : List Char := [nibbleToChar (b.val / 16), nibbleToChar (b.val % 16)]

/-- `Buffer.prototype.toString("hex")`: lowercase hex, two characters per
byte. -/
def bytesToHex (bs : Bytes) : String := ⟨(bs.map byteToHex).flatten⟩

/-- The value of a hex digit character; both cases accepted, like Node's hex
decoder. -/
def charToNibble (c : Char) : Option Nat :=
  if '0' ≤ c ∧ c ≤ '9' then some (c.toNat - '0'.toNat)
  else if 'a' ≤ c ∧ c ≤ 'f' then some (c.toNat - 'a'.toNat + 10)
  else if 'A' ≤ c ∧ c ≤ 'F' then some (c.toNat - 'A'.toNat + 10)
  else none

/-- `Buffer.from(s, "hex")` on a character list: decode pairs of hex digits
until the input is exhausted, an invalid digit is met, or a lone trailing
digit remains (Node truncates in the latter two cases). -/
def hexPairsToBytes : List Char → Bytes
  | c1 :: c2 :: rest =>
    match charToNibble c1, charToNibble c2 with
    | some hi, some lo => (⟨(16 * hi + lo) % 256, Nat.mod_lt _ (by omega)⟩ : Byte) :: hexPairsToBytes rest
    | _, _ => []
  | _ => []

/-- `Buffer.from(s, "hex")`. -/
def hexToBytes (s : String) : Bytes := hexPairsToBytes s.data

/-- One character of the regex class `[0-9a-fA-F]` used by
`validateSerializedTree`. -/
def isHexCharJS (c : Char) : Bool :=
  (decide ('0' ≤ c) && decide (c ≤ '9')) ||
  (decide ('a' ≤ c) && decide (c ≤ 'f')) ||
  (decide ('A' ≤ c) && decide (c ≤ 'F'))

/-- The regex test `/^[0-9a-fA-F]+$/.test(s)`: non-empty and all hex
digits. -/
def isHexStringJS (s : String) : Bool :=
  !s.data.isEmpty && s.data.all isHexCharJS

/-! ## Serialization (toJSON / fromJSON)

The JSON-string layer (`JSON.stringify` / `JSON.parse` of the
`{ leaves, tree }` object) is the runtime's codec and is elided; the
embedding works with the parsed `SerializedTree` shape directly. -/

/-- `SerializedTree` from `src/types/index.ts`: hex strings for the leaf
hashes and for every tree level. -/
structure SerializedTree where
  leaves : List String
  tree : List (List String)
  deriving DecidableEq

/-- `validateSerializedTree` from `src/utils/index.ts`.  The object/array
shape checks hold by type here; the hex-string checks are performed in
source order (leaves first, then every level). -/
def validateSerializedTree (data : SerializedTree) : Except MerkleError Unit :=
  if ¬ data.leaves.all isHexStringJS then
    .error (.malformedSerialization "Invalid tree data: leaves must be hex strings")
  else if ¬ data.tree.all (fun level => level.all isHexStringJS) then
    .error (.malformedSerialization "Invalid tree data: tree hashes must be hex strings")
  else .ok ()

/-- `toJSON()`: hex-encode the leaf hashes and every level. -/
def MerkleTree.toSerialized (t : MerkleTree) : SerializedTree :=
  ⟨t.leaves.map bytesToHex, t.tree.map (fun level => level.map bytesToHex)⟩

/-- `fromJSON(json, hashFn)`: validate, then build an instance whose
`_leaves` and `_tree` are the decoded hex strings.  (The source constructs a
dummy single-leaf tree — which always succeeds — and then overwrites both
fields, so the constructor's non-empty check is not applied to the decoded
data.) -/
def MerkleTree.fromSerialized (data : SerializedTree) (hashFn : HashFn) :
    Except MerkleError MerkleTree := do
  validateSerializedTree data
  .ok ⟨data.leaves.map hexToBytes, data.tree.map (fun level => level.map hexToBytes), hashFn⟩

/-! ## The core variant (`src/core/MerkleTree.ts` with `createParentNode`) -/

/-- `Buffer.compare(a, b)`: lexicographic byte order; a strict prefix is
smaller. -/
def bufCompare : Bytes → Bytes → Ordering
  | [], [] => .eq
  | [], _ :: _ => .lt
  | _ :: _, [] => .gt
  | a :: as, b :: bs => if a < b then .lt else if b < a then .gt else bufCompare as bs

/-- Lexicographic byte order as a relation (the "canonical order" of the
spec's sort-pairs mode). -/
def lexLe : Bytes → Bytes → Bool
  | [], _ => true
  | _ :: _, [] => false
  | a :: as, b :: bs => if a < b then true else if b < a then false else lexLe as bs

/-- The lexicographically smaller of two buffers. -/
def lexMin (a b : Bytes) : Bytes := if lexLe a b then a else b

/-- The lexicographically larger of two buffers. -/
def lexMax (a b : Bytes) : Bytes := if lexLe a b then b else a

/-- The hash computed by `createParentNode` (src/utils/index.ts): when
`sortPairs` is set the two child hashes are sorted with
`[left, right].sort((a, b) => a.compare(b))` — a two-element JavaScript sort
swaps exactly when the comparator is positive — before concatenation and
hashing. -/
def createParentHash (hashFn : HashFn) (sortPairs : Bool) (left right : Bytes) : Bytes :=
  let pair :=
    if sortPairs then
      if bufCompare left right = .gt then (right, left) else (left, right)
    else (left, right)
  hashFn (pair.1 ++ pair.2)

/-- `buildTree` of `src/core/MerkleTree.ts`: the same level loop as
`_buildTree`, but each parent is produced by `createParentNode` with the
instance's `sortPairs` flag.  Returns all levels, leaves first. -/
def coreBuildTree (hashFn : HashFn) (sortPairs : Bool) (leafHashes : List Bytes) :
    List (List Bytes) :=
  leafHashes :: levelsFrom (createParentHash hashFn sortPairs) leafHashes
/-! ## Supporting lemmas: proof generation against the level chain -/

theorem getD_default_irrel (l : List Bytes) (i : Nat) (h : i < l.length) (d₁ d₂ : Bytes) :
    l.getD i d₁ = l.getD i d₂ := by
  rw [List.getD_eq_getElem l d₁ h, List.getD_eq_getElem l d₂ h]

theorem proofStep_odd (l : List Bytes) (m : Nat) :
    proofStep l (2 * m + 1) = ⟨l.getD (2 * m) (l.getD (2 * m + 1) []), "left"⟩ := by
  have h1 : (2 * m + 1) % 2 = 1 := by omega
  have h2 : 2 * m + 1 - 1 = 2 * m := by omega
  simp [proofStep, h1, h2]

theorem proofStep_even (l : List Bytes) (m : Nat) :
    proofStep l (2 * m) = ⟨l.getD (2 * m + 1) (l.getD (2 * m) []), "right"⟩ := by
  have h1 : (2 * m) % 2 = 0 := by omega
  simp [proofStep, h1]

theorem applyStep_left (hashFn : HashFn) (cur sib : Bytes) :
    applyStep hashFn cur ⟨sib, "left"⟩ = hashFn (sib ++ cur) := by
  simp [applyStep]

theorem applyStep_right (hashFn : HashFn) (cur sib : Bytes) :
    applyStep hashFn cur ⟨sib, "right"⟩ = hashFn (cur ++ sib) := by
  simp [applyStep]

/-- One step of the proof loop recomputes exactly the parent hash at index
`idx / 2` of the paired-up level. -/
theorem applyStep_proofStep (hashFn : HashFn) (l : List Bytes) (idx : Nat)
    (h : idx < l.length) :
    applyStep hashFn (l.getD idx []) (proofStep l idx) =
      (pairUp (fun a b => hashFn (a ++ b)) l).getD (idx / 2) [] := by
  by_cases hodd : idx % 2 = 1
  · obtain ⟨m, rfl⟩ : ∃ m, idx = 2 * m + 1 := ⟨idx / 2, by omega⟩
    have h3 : (2 * m + 1) / 2 = m := by omega
    have hsib : l.getD (2 * m) (l.getD (2 * m + 1) []) = l.getD (2 * m) [] :=
      getD_default_irrel l (2 * m) (by omega) _ _
    rw [h3, (pairUp_getD _ l m).1 h, proofStep_odd, applyStep_left, hsib]
  · obtain ⟨m, rfl⟩ : ∃ m, idx = 2 * m := ⟨idx / 2, by omega⟩
    have h3 : (2 * m) / 2 = m := by omega
    rcases Nat.lt_or_ge (2 * m + 1) l.length with hin | hout
    · have hsib : l.getD (2 * m + 1) (l.getD (2 * m) []) = l.getD (2 * m + 1) [] :=
        getD_default_irrel l (2 * m + 1) hin _ _
      rw [h3, (pairUp_getD _ l m).1 hin, proofStep_even, applyStep_right, hsib]
    · have heq : 2 * m + 1 = l.length := by omega
      have hsib : l.getD (2 * m + 1) (l.getD (2 * m) []) = l.getD (2 * m) [] :=
        List.getD_eq_default _ _ (by omega)
      rw [h3, (pairUp_getD _ l m).2 heq, proofStep_even, applyStep_right, hsib]

/-- Folding the generated proof steps from the leaf hash along the level
chain reaches the root. -/
theorem chain_fold (hashFn : HashFn) {levels : List (List Bytes)}
    (hch : Chain (fun a b => hashFn (a ++ b)) levels) :
    ∀ (idx : Nat) (r : Bytes), idx < (levels.getD 0 []).length →
      levels.getLast? = some [r] →
      foldSteps hashFn ((levels.getD 0 []).getD idx []) (proofWalk levels idx) = r := by
  induction hch with
  | single l hl =>
    intro idx r hidx hlast
    have hfr : l = [r] := by simpa using hlast
    subst hfr
    have hz : idx = 0 := by
      simp only [List.getD_cons_zero, List.length_singleton] at hidx
      omega
    subst hz
    simp [proofWalk, foldSteps]
  | step l rest h hrest hhead ih =>
    intro idx r hidx hlast
    match rest, hhead, hrest, ih, hlast with
    | p :: rest', hhead, hrest, ih, hlast =>
      have hp : p = pairUp (fun a b => hashFn (a ++ b)) l := by simpa using hhead
      have hidx0 : idx < l.length := by simpa using hidx
      simp only [List.getD_cons_zero, proofWalk, foldSteps]
      rw [applyStep_proofStep hashFn l idx hidx0, ← hp]
      have hlast' : (p :: rest').getLast? = some [r] := by
        rw [List.getLast?_cons_cons] at hlast
        exact hlast
      have hidx' : idx / 2 < p.length := by
        rw [hp, pairUp_length]
        omega
      simpa using ih (idx / 2) r (by simpa using hidx') hlast'

/-- Every position recorded by the proof loop is "left" or "right". -/
theorem proofWalk_positions :
    ∀ (levels : List (List Bytes)) (idx : Nat) (item : ProofItem),
      item ∈ proofWalk levels idx → item.position = "left" ∨ item.position = "right"
  | [], _, _, h => by simp [proofWalk] at h
  | [_], _, _, h => by simp [proofWalk] at h
  | lvl :: next :: rest, idx, item, h => by
    simp only [proofWalk, List.mem_cons] at h
    rcases h with h | h
    · subst h
      by_cases hb : (idx % 2 == 1) = true <;> simp [proofStep, hb]
    · exact proofWalk_positions (next :: rest) (idx / 2) item h

/-- A generated proof, fed back to the dynamically-typed verifier, passes
every structural check. -/
theorem proofWalk_toRaw_wellFormed (levels : List (List Bytes)) (idx : Nat) :
    ((proofWalk levels idx).map ProofItem.toRaw).all wellFormedRaw = true := by
  rw [List.all_eq_true]
  intro raw hraw
  simp only [List.mem_map] at hraw
  obtain ⟨item, hmem, rfl⟩ := hraw
  rcases proofWalk_positions levels idx item hmem with hp | hp <;>
    simp [wellFormedRaw, ProofItem.toRaw, hp]

/-! ## Supporting lemmas: the verifier fold -/

theorem verifyFold_ok (hashFn : HashFn) :
    ∀ (proof : List RawProofItem) (cur : Bytes), proof.all wellFormedRaw = true →
      verifyFold hashFn cur proof = .ok (foldSteps hashFn cur (proof.map RawProofItem.strip))
  | [], _, _ => rfl
  | item :: rest, cur, h => by
    simp only [List.all_cons, Bool.and_eq_true] at h
    obtain ⟨hitem, hrest⟩ := h
    simp only [wellFormedRaw, Bool.and_eq_true, Bool.or_eq_true, decide_eq_true_eq,
      Option.isSome_iff_exists] at hitem
    obtain ⟨⟨sib, hsib⟩, hpos⟩ := hitem
    have hstrip : RawProofItem.strip item = ⟨sib, item.position⟩ := by
      simp [RawProofItem.strip, hsib]
    rcases hpos with hp | hp
    · rw [show verifyFold hashFn cur (item :: rest) =
          verifyFold hashFn (hashFn (sib ++ cur)) rest from by simp [verifyFold, hsib, hp]]
      rw [List.map_cons, hstrip, hp]
      rw [show foldSteps hashFn cur (⟨sib, "left"⟩ :: List.map RawProofItem.strip rest) =
          foldSteps hashFn (hashFn (sib ++ cur)) (List.map RawProofItem.strip rest) from by
        rw [foldSteps, applyStep_left]]
      exact verifyFold_ok hashFn rest (hashFn (sib ++ cur)) hrest
    · rw [show verifyFold hashFn cur (item :: rest) =
          verifyFold hashFn (hashFn (cur ++ sib)) rest from by simp [verifyFold, hsib, hp]]
      rw [List.map_cons, hstrip, hp]
      rw [show foldSteps hashFn cur (⟨sib, "right"⟩ :: List.map RawProofItem.strip rest) =
          foldSteps hashFn (hashFn (cur ++ sib)) (List.map RawProofItem.strip rest) from by
        rw [foldSteps, applyStep_right]]
      exact verifyFold_ok hashFn rest (hashFn (cur ++ sib)) hrest

theorem verifyFold_error (hashFn : HashFn) :
    ∀ (proof : List RawProofItem) (cur : Bytes), proof.all wellFormedRaw = false →
      verifyFold hashFn cur proof = .error .invalidProofSibling ∨
      verifyFold hashFn cur proof = .error .invalidProofPosition
  | [], _, h => by simp at h
  | item :: rest, cur, h => by
    by_cases hitem : wellFormedRaw item = true
    · have hrest : rest.all wellFormedRaw = false := by
        simp only [List.all_cons, hitem, Bool.true_and] at h
        exact h
      simp only [wellFormedRaw, Bool.and_eq_true, Bool.or_eq_true, decide_eq_true_eq,
        Option.isSome_iff_exists] at hitem
      obtain ⟨⟨sib, hsib⟩, hpos⟩ := hitem
      rcases hpos with hp | hp
      · rw [show verifyFold hashFn cur (item :: rest) =
            verifyFold hashFn (hashFn (sib ++ cur)) rest from by simp [verifyFold, hsib, hp]]
        exact verifyFold_error hashFn rest _ hrest
      · rw [show verifyFold hashFn cur (item :: rest) =
            verifyFold hashFn (hashFn (cur ++ sib)) rest from by simp [verifyFold, hsib, hp]]
        exact verifyFold_error hashFn rest _ hrest
    · have hitem' : wellFormedRaw item = false := by simpa using hitem
      cases hsib : item.sibling with
      | none =>
        left
        simp [verifyFold, hsib]
      | some sib =>
        have hpos : item.position ≠ "left" ∧ item.position ≠ "right" := by
          simp only [wellFormedRaw, hsib, Option.isSome_some, Bool.true_and,
            Bool.or_eq_false_iff, decide_eq_false_iff_not] at hitem'
          exact hitem'
        right
        simp [verifyFold, hsib, hpos]

/-! ## Supporting lemmas: hex codec -/

theorem charToNibble_nibbleToChar :
    ∀ n : Fin 16, charToNibble (nibbleToChar n.val) = some n.val := by
  decide

theorem isHexCharJS_nibbleToChar :
    ∀ n : Fin 16, isHexCharJS (nibbleToChar n.val) = true := by
  decide

theorem hexPairsToBytes_byteToHex (b : Byte) (cs : List Char) :
    hexPairsToBytes (byteToHex b ++ cs) = b :: hexPairsToBytes cs := by
  have hhi : charToNibble (nibbleToChar (b.val / 16)) = some (b.val / 16) :=
    charToNibble_nibbleToChar ⟨b.val / 16, by omega⟩
  have hlo : charToNibble (nibbleToChar (b.val % 16)) = some (b.val % 16) :=
    charToNibble_nibbleToChar ⟨b.val % 16, by omega⟩
  simp only [byteToHex, List.cons_append, List.nil_append, hexPairsToBytes, hhi, hlo]
  congr 1
  apply Fin.ext
  have hb := b.isLt
  simp only [Fin.val]
  omega

theorem hexToBytes_bytesToHex : ∀ bs : Bytes, hexToBytes (bytesToHex bs) = bs := by
  intro bs
  induction bs with
  | nil => rfl
  | cons b rest ih =>
    show hexPairsToBytes (List.map byteToHex (b :: rest)).flatten = b :: rest
    rw [List.map_cons, List.flatten_cons, hexPairsToBytes_byteToHex]
    exact congrArg (b :: ·) ih

theorem bytesToHex_isHex (bs : Bytes) (h : bs ≠ []) : isHexStringJS (bytesToHex bs) = true := by
  show (!(List.map byteToHex bs).flatten.isEmpty &&
    (List.map byteToHex bs).flatten.all isHexCharJS) = true
  rw [Bool.and_eq_true]
  constructor
  · cases bs with
    | nil => cases h rfl
    | cons b rest => simp [byteToHex]
  · rw [List.all_eq_true]
    intro c hc
    simp only [List.mem_flatten, List.mem_map] at hc
    obtain ⟨chars, ⟨b, _, rfl⟩, hcl⟩ := hc
    simp only [byteToHex, List.mem_cons, List.not_mem_nil, or_false] at hcl
    rcases hcl with rfl | rfl
    · exact isHexCharJS_nibbleToChar ⟨b.val / 16, by omega⟩
    · exact isHexCharJS_nibbleToChar ⟨b.val % 16, by omega⟩

/-! ## Supporting lemmas: lexicographic order and sorted pairing -/

theorem lexLe_refl : ∀ a : Bytes, lexLe a a = true
  | [] => rfl
  | x :: xs => by simp [lexLe, lexLe_refl xs]

theorem bufCompare_gt_iff : ∀ a b : Bytes, bufCompare a b = .gt ↔ lexLe a b = false
  | [], [] => by simp [bufCompare, lexLe]
  | [], _ :: _ => by simp [bufCompare, lexLe]
  | _ :: _, [] => by simp [bufCompare, lexLe]
  | a :: as, b :: bs => by
    simp only [bufCompare, lexLe]
    by_cases h1 : a < b
    · simp [h1]
    · by_cases h2 : b < a
      · simp [h1, h2]
      · simp [h1, h2, bufCompare_gt_iff as bs]

theorem createParentHash_false (hashFn : HashFn) (l r : Bytes) :
    createParentHash hashFn false l r = hashFn (l ++ r) := rfl

theorem createParentHash_true (hashFn : HashFn) (l r : Bytes) :
    createParentHash hashFn true l r = hashFn (lexMin l r ++ lexMax l r) := by
  unfold createParentHash lexMin lexMax
  by_cases h : lexLe l r = true
  · have hne : ¬ bufCompare l r = .gt := by
      rw [bufCompare_gt_iff, h]
      simp
    simp [hne, h]
  · have hf : lexLe l r = false := by simpa using h
    have hgt : bufCompare l r = .gt := (bufCompare_gt_iff l r).mpr hf
    simp [hgt, hf]

theorem createParentHash_self (hashFn : HashFn) (sortPairs : Bool) (a : Bytes) :
    createParentHash hashFn sortPairs a a = hashFn (a ++ a) := by
  cases sortPairs
  · rfl
  · rw [createParentHash_true]
    unfold lexMin lexMax
    simp [lexLe_refl]

/-! ## Supporting lemmas: tree depth -/

theorem levelsFrom_length_clog (combine : Bytes → Bytes → Bytes) (l : List Bytes)
    (h : l ≠ []) : (levelsFrom combine l).length = Nat.clog 2 l.length := by
  rw [levelsFrom_eq]
  by_cases h1 : 1 < l.length
  · rw [if_pos h1, List.length_cons]
    have hp : (pairUp combine l).length = (l.length + 1) / 2 := pairUp_length combine l
    have hpne : pairUp combine l ≠ [] := by
      intro hnil
      rw [hnil] at hp
      simp at hp
      omega
    have hc : Nat.clog 2 l.length = Nat.clog 2 ((l.length + 2 - 1) / 2) + 1 :=
      Nat.clog_of_two_le (by omega) (by omega)
    have he : (l.length + 2 - 1) / 2 = (l.length + 1) / 2 := by omega
    rw [levelsFrom_length_clog combine (pairUp combine l) hpne, hp, hc, he]
  · rw [if_neg h1]
    have hlen : l.length = 1 := by
      have : 0 < l.length := List.length_pos.mpr h
      omega
    rw [hlen, Nat.clog_one_right]
    rfl
termination_by l.length
decreasing_by
  have := pairUp_length combine l
  omega

/-- Every hash stored in an upper level is an output of the combining
function. -/
theorem levelsFrom_mem (combine : Bytes → Bytes → Bytes) (P : Bytes → Prop)
    (hP : ∀ a b, P (combine a b)) (l lvl : List Bytes)
    (hlvl : lvl ∈ levelsFrom combine l) : ∀ x ∈ lvl, P x := by
  rw [levelsFrom_eq] at hlvl
  by_cases h1 : 1 < l.length
  · rw [if_pos h1] at hlvl
    rcases List.mem_cons.mp hlvl with rfl | hmem
    · intro x hx
      obtain ⟨a, b, rfl⟩ := pairUp_mem combine l x hx
      exact hP a b
    · exact levelsFrom_mem combine P hP (pairUp combine l) lvl hmem
  · rw [if_neg h1] at hlvl
    simp at hlvl
termination_by l.length
decreasing_by
  have := pairUp_length combine l
  omega

/-! ## Supporting lemmas: instance accessors -/

theorem ofLeaves_ok (hashFn : HashFn) (sp : Bool) (raw : List Bytes) (t : MerkleTree)
    (ht : MerkleTree.ofLeaves hashFn sp raw = .ok t) :
    t.leaves = raw.map hashFn ∧
    t.tree = raw.map hashFn :: levelsFrom (fun a b => hashFn (a ++ b)) (raw.map hashFn) ∧
    raw ≠ [] := by
  unfold MerkleTree.ofLeaves at ht
  by_cases h : raw.length = 0
  · rw [if_pos h] at ht
    cases ht
  · rw [if_neg h] at ht
    injection ht with ht
    subst ht
    exact ⟨rfl, rfl, by intro hn; subst hn; simp at h⟩

theorem root_eq_of_getLast (t : MerkleTree) (r : Bytes)
    (h : t.tree.getLast? = some [r]) : t.root = some r := by
  unfold MerkleTree.root
  have hne : t.tree ≠ [] := by
    intro hnil
    rw [hnil] at h
    simp at h
  have hpos : 0 < t.tree.length := List.length_pos.mpr hne
  rw [List.getLast?_eq_getElem?] at h
  have hlt : t.tree.length - 1 < t.tree.length := by omega
  rw [List.getElem?_eq_getElem hlt] at h
  have hD : t.tree.getD (t.tree.length - 1) [] = [r] := by
    rw [List.getD_eq_getElem _ _ hlt]
    injection h
  rw [hD]
  rfl

theorem getProof_nat (t : MerkleTree) (i : Nat) (h : i < t.leaves.length) :
    t.getProof (i : ℚ) = .ok (proofWalk t.tree i) := by
  unfold MerkleTree.getProof
  rw [if_neg (by simp [Rat.den_natCast])]
  rw [if_neg (by simp only [Rat.num_natCast]; omega)]
  rw [Rat.num_natCast, Int.toNat_natCast]

theorem getLeaf_nat (t : MerkleTree) (i : Nat) (h : i < t.leaves.length) :
    t.getLeaf (i : ℚ) = .ok (t.leaves.getD i []) := by
  unfold MerkleTree.getLeaf
  rw [if_neg (by simp [Rat.den_natCast])]
  rw [if_neg (by simp only [Rat.num_natCast]; omega)]
  rw [Rat.num_natCast, Int.toNat_natCast]

/-! # Claim theorems -/

/-- **C1**: for every tree built from a non-empty leaf list (default
options, any injected hash function — in particular the default SHA-256) and
every index `i` in `[0, leafCount)`, `getProof(i)` verifies with
`verifyProof` against the tree's own leaf hash `getLeaf(i)` and the tree's
own root, returning `true`.  The statement covers odd-length levels, whose
proofs contain self-pair steps. -/
theorem C1_prove_then_verify (hashFn : HashFn) (raw : List Bytes) (t : MerkleTree)
    (ht : MerkleTree.ofLeaves hashFn false raw = .ok t) (i : Nat) (hi : i < t.leafCount) :
    ∃ leaf proof r,
      t.getLeaf (i : ℚ) = .ok leaf ∧
      t.getProof (i : ℚ) = .ok proof ∧
      t.root = some r ∧
      MerkleTree.verifyProof leaf (proof.map ProofItem.toRaw) r hashFn = .ok true := by
  obtain ⟨hl, htr, hraw⟩ := ofLeaves_ok hashFn false raw t ht
  have hi' : i < t.leaves.length := hi
  have hch : Chain (fun a b => hashFn (a ++ b)) t.tree := by
    rw [htr]
    exact chain_levelsFrom _ _
  have hLne : raw.map hashFn ≠ [] := by simpa using hraw
  obtain ⟨r, hr⟩ := hch.getLast_singleton (raw.map hashFn) (by rw [htr]; rfl) hLne
  refine ⟨t.leaves.getD i [], proofWalk t.tree i, r, getLeaf_nat t i hi',
    getProof_nat t i hi', root_eq_of_getLast t r hr, ?_⟩
  unfold MerkleTree.verifyProof
  rw [verifyFold_ok hashFn _ _ (proofWalk_toRaw_wellFormed t.tree i)]
  have hcomp : RawProofItem.strip ∘ ProofItem.toRaw = id := by
    funext p
    cases p
    rfl
  rw [List.map_map, hcomp, List.map_id]
  have h0 : t.tree.getD 0 [] = t.leaves := by
    rw [htr, hl]
    rfl
  have hfold := chain_fold hashFn hch i r (by rw [h0]; exact hi') hr
  rw [h0] at hfold
  rw [hfold]
  show Except.ok (decide (r = r)) = Except.ok true
  simp

/-- Witness for C1: a three-leaf tree (odd leaf count, so the proof for leaf
2 contains a self-pair step), index 2, identity hash. -/
theorem C1_witness :
    ∃ t, MerkleTree.ofLeaves idHash false [[1], [2], [3]] = .ok t ∧
      2 < t.leafCount ∧
      ∃ leaf proof r,
        t.getLeaf ((2 : Nat) : ℚ) = .ok leaf ∧
        t.getProof ((2 : Nat) : ℚ) = .ok proof ∧
        t.root = some r ∧
        MerkleTree.verifyProof leaf (proof.map ProofItem.toRaw) r idHash = .ok true :=
  ⟨_, rfl, by decide, C1_prove_then_verify idHash [[1], [2], [3]] _ rfl 2 (by decide)⟩

/-- **C2**: `verifyProof` returns `.ok true` exactly when the hash obtained
by folding the proof steps from the leaf hash equals the claimed root byte
for byte; when every step is structurally well-formed the result is a
boolean (never an exception), whatever the lengths of the sibling hashes;
and it fails with an `InvalidProof`-category error exactly when some step is
malformed (non-Buffer sibling, or position other than "left"/"right"). -/
theorem C2_verify_semantics (hashFn : HashFn) (leafHash root : Bytes)
    (proof : List RawProofItem) :
    (proof.all wellFormedRaw = true →
      MerkleTree.verifyProof leafHash proof root hashFn =
        .ok (decide (foldSteps hashFn leafHash (proof.map RawProofItem.strip) = root))) ∧
    (proof.all wellFormedRaw = false →
      (MerkleTree.verifyProof leafHash proof root hashFn = .error .invalidProofSibling ∨
       MerkleTree.verifyProof leafHash proof root hashFn = .error .invalidProofPosition)) ∧
    MerkleError.invalidProofSibling.isInvalidProof = true ∧
    MerkleError.invalidProofPosition.isInvalidProof = true := by
  refine ⟨?_, ?_, rfl, rfl⟩
  · intro h
    unfold MerkleTree.verifyProof
    rw [verifyFold_ok hashFn proof leafHash h]
    rfl
  · intro h
    unfold MerkleTree.verifyProof
    rcases verifyFold_error hashFn proof leafHash h with he | he <;> rw [he]
    · left
      rfl
    · right
      rfl

/-- Witness for C2: a well-formed one-step proof (boolean result equal to
the fold comparison) and a malformed one (position "up") that errors. -/
theorem C2_witness :
    MerkleTree.verifyProof [7] [⟨some [5], "left"⟩] [5, 7] idHash =
      .ok (decide (foldSteps idHash [7]
        (([⟨some [5], "left"⟩] : List RawProofItem).map RawProofItem.strip) = [5, 7])) ∧
    (MerkleTree.verifyProof [7] [⟨some [5], "up"⟩] [5, 7] idHash =
        .error .invalidProofSibling ∨
      MerkleTree.verifyProof [7] [⟨some [5], "up"⟩] [5, 7] idHash =
        .error .invalidProofPosition) :=
  ⟨(C2_verify_semantics idHash [7] [5, 7] [⟨some [5], "left"⟩]).1 (by decide),
   (C2_verify_semantics idHash [7] [5, 7] [⟨some [5], "up"⟩]).2.1 (by decide)⟩

/-- **C3 counterexample**: the round-trip law fails as stated.  With the
supported `"none"` hash algorithm (identity, a legal `bytes -> bytes`
configuration — the core enforces no minimum digest length) and the single
empty-buffer leaf, the leaf hash is the empty buffer, its hex encoding is
the empty string, and `fromJSON` rejects the empty string against the
`/^[0-9a-fA-F]+$/` check instead of reproducing the tree. -/
theorem C3_counterexample :
    ∃ t, MerkleTree.ofLeaves idHash false [[]] = .ok t ∧
      MerkleTree.fromSerialized (MerkleTree.toSerialized t) idHash =
        .error (.malformedSerialization "Invalid tree data: leaves must be hex strings") :=
  ⟨_, rfl, rfl⟩

/-- **C3 amended**: for every tree built from a non-empty leaf list with a
hash function whose digests are never empty (any fixed positive-length
digest, in particular the default SHA-256), deserializing the serialized
form with the same hash function yields a tree with identical root,
identical leaf hashes in order, and an identical level structure. -/
theorem C3_roundtrip (hashFn : HashFn) (raw : List Bytes) (t : MerkleTree)
    (ht : MerkleTree.ofLeaves hashFn false raw = .ok t)
    (hne : ∀ b, hashFn b ≠ []) :
    ∃ t', MerkleTree.fromSerialized (MerkleTree.toSerialized t) hashFn = .ok t' ∧
      t'.root = t.root ∧ t'.leaves = t.leaves ∧ t'.tree = t.tree := by
  obtain ⟨hl, htr, hraw⟩ := ofLeaves_ok hashFn false raw t ht
  have hleaves_ne : ∀ x ∈ t.leaves, x ≠ [] := by
    rw [hl]
    intro x hx
    simp only [List.mem_map] at hx
    obtain ⟨y, -, rfl⟩ := hx
    exact hne y
  have htree_ne : ∀ lvl ∈ t.tree, ∀ x ∈ lvl, x ≠ [] := by
    rw [htr]
    intro lvl hlvl
    rcases List.mem_cons.mp hlvl with rfl | hmem
    · intro x hx
      simp only [List.mem_map] at hx
      obtain ⟨y, -, rfl⟩ := hx
      exact hne y
    · exact levelsFrom_mem _ (· ≠ []) (fun a b => hne (a ++ b)) _ lvl hmem
  have hall1 : (t.leaves.map bytesToHex).all isHexStringJS = true := by
    rw [List.all_eq_true]
    intro s hs
    simp only [List.mem_map] at hs
    obtain ⟨x, hx, rfl⟩ := hs
    exact bytesToHex_isHex x (hleaves_ne x hx)
  have hall2 : (t.tree.map (fun level => level.map bytesToHex)).all
      (fun level => level.all isHexStringJS) = true := by
    rw [List.all_eq_true]
    intro lvl hlvl
    simp only [List.mem_map] at hlvl
    obtain ⟨lvl0, hlvl0, rfl⟩ := hlvl
    rw [List.all_eq_true]
    intro s hs
    simp only [List.mem_map] at hs
    obtain ⟨x, hx, rfl⟩ := hs
    exact bytesToHex_isHex x (htree_ne lvl0 hlvl0 x hx)
  have hval : validateSerializedTree (MerkleTree.toSerialized t) = .ok () := by
    unfold validateSerializedTree MerkleTree.toSerialized
    rw [if_neg (by rw [hall1]; simp), if_neg (by rw [hall2]; simp)]
  have hcomp : hexToBytes ∘ bytesToHex = id := funext hexToBytes_bytesToHex
  have hle : (t.leaves.map bytesToHex).map hexToBytes = t.leaves := by
    rw [List.map_map, hcomp, List.map_id]
  have hte : (t.tree.map (fun level => level.map bytesToHex)).map
      (fun level => level.map hexToBytes) = t.tree := by
    rw [List.map_map]
    have : ((fun level => List.map hexToBytes level) ∘ fun level => List.map bytesToHex level) =
        (id : List Bytes → List Bytes) := by
      funext lvl
      simp only [Function.comp_apply, List.map_map, hcomp, List.map_id, id_eq]
    rw [this, List.map_id]
  refine ⟨⟨(t.leaves.map bytesToHex).map hexToBytes,
    (t.tree.map (fun level => level.map bytesToHex)).map (fun level => level.map hexToBytes),
    hashFn⟩, ?_, ?_, hle, hte⟩
  · unfold MerkleTree.fromSerialized
    rw [hval]
    rfl
  · unfold MerkleTree.root
    rw [hte]

/-- Witness for the amended C3: a three-leaf tree under a one-byte digest
round-trips with identical root, leaves and levels. -/
theorem C3_witness :
    ∃ t, MerkleTree.ofLeaves oneByteHash false [[1], [2], [3]] = .ok t ∧
      ∃ t', MerkleTree.fromSerialized (MerkleTree.toSerialized t) oneByteHash = .ok t' ∧
        t'.root = t.root ∧ t'.leaves = t.leaves ∧ t'.tree = t.tree :=
  ⟨_, rfl, C3_roundtrip oneByteHash [[1], [2], [3]] _ rfl
    (fun b => by simp [oneByteHash])⟩

/-- **C4**: every constructed tree satisfies the level-shape invariant:
`levels[i+1].length == ceil(levels[i].length / 2)` (in natural-number
arithmetic `ceil(n / 2) = (n + 1) / 2`), the last level is a single hash
(the root), and each parent is the hash of the concatenation of its two
children, the final parent of an odd-length level being `hash(last ++
last)` (self-pair). -/
theorem C4_level_shape (hashFn : HashFn) (raw : List Bytes) (t : MerkleTree)
    (ht : MerkleTree.ofLeaves hashFn false raw = .ok t) :
    (∀ i, i + 1 < t.tree.length →
      (t.tree.getD (i + 1) []).length = ((t.tree.getD i []).length + 1) / 2) ∧
    (∃ r, t.tree.getLast? = some [r]) ∧
    (∀ i k, i + 1 < t.tree.length →
      (2 * k + 1 < (t.tree.getD i []).length →
        (t.tree.getD (i + 1) []).getD k [] =
          hashFn ((t.tree.getD i []).getD (2 * k) [] ++
            (t.tree.getD i []).getD (2 * k + 1) [])) ∧
      (2 * k + 1 = (t.tree.getD i []).length →
        (t.tree.getD (i + 1) []).getD k [] =
          hashFn ((t.tree.getD i []).getD (2 * k) [] ++
            (t.tree.getD i []).getD (2 * k) []))) := by
  obtain ⟨hl, htr, hraw⟩ := ofLeaves_ok hashFn false raw t ht
  have hch : Chain (fun a b => hashFn (a ++ b)) t.tree := by
    rw [htr]
    exact chain_levelsFrom _ _
  refine ⟨?_, ?_, ?_⟩
  · intro i hi
    rw [hch.getD_succ i hi, pairUp_length]
  · exact hch.getLast_singleton (raw.map hashFn) (by rw [htr]; rfl) (by simpa using hraw)
  · intro i k hi
    rw [hch.getD_succ i hi]
    exact pairUp_getD _ _ k

/-- Witness for C4: three leaves; level 1 has `(3 + 1) / 2 = 2` nodes, the
last level is a singleton, and the second parent of level 0 is the
self-pair hash of leaf 2. -/
theorem C4_witness :
    ∃ t, MerkleTree.ofLeaves idHash false [[1], [2], [3]] = .ok t ∧
      (t.tree.getD 1 []).length = ((t.tree.getD 0 []).length + 1) / 2 ∧
      (∃ r, t.tree.getLast? = some [r]) ∧
      (t.tree.getD 1 []).getD 1 [] =
        idHash ((t.tree.getD 0 []).getD 2 [] ++ (t.tree.getD 0 []).getD 2 []) := by
  refine ⟨_, rfl, ?_, ?_, ?_⟩
  · exact (C4_level_shape idHash [[1], [2], [3]] _ rfl).1 0 (by decide)
  · exact (C4_level_shape idHash [[1], [2], [3]] _ rfl).2.1
  · exact ((C4_level_shape idHash [[1], [2], [3]] _ rfl).2.2 0 1 (by decide)).2 (by decide)

/-- **C5**: for a tree of `n` leaves the number of levels is
`ceil(log2 n) + 1` (Lean: `Nat.clog 2 n + 1`) when `n > 1`, and `1` when
`n = 1` — in the latter case the tree is the single leaf level and the root
is the leaf's own hash, with no internal hashing performed. -/
theorem C5_depth (hashFn : HashFn) (raw : List Bytes) (t : MerkleTree)
    (ht : MerkleTree.ofLeaves hashFn false raw = .ok t) :
    (t.leafCount = 1 → t.depth = 1 ∧ t.tree = [t.leaves] ∧ t.root = t.leaves.get? 0) ∧
    (1 < t.leafCount → t.depth = Nat.clog 2 t.leafCount + 1) := by
  obtain ⟨hl, htr, hraw⟩ := ofLeaves_ok hashFn false raw t ht
  constructor
  · intro h1
    have hLlen : (raw.map hashFn).length = 1 := by
      rw [← hl]
      exact h1
    have hnil : levelsFrom (fun a b => hashFn (a ++ b)) (raw.map hashFn) = [] := by
      rw [levelsFrom_eq, if_neg (by omega)]
    refine ⟨?_, ?_, ?_⟩
    · unfold MerkleTree.depth
      rw [htr, hnil]
      rfl
    · rw [htr, hnil, hl]
    · unfold MerkleTree.root
      rw [htr, hnil, hl]
      rfl
  · intro h1
    unfold MerkleTree.depth
    rw [htr, List.length_cons,
      levelsFrom_length_clog _ _ (by simpa using hraw)]
    unfold MerkleTree.leafCount
    rw [hl]

/-- Witness for C5: a three-leaf tree has depth `clog2(3) + 1 = 3`; a
single-leaf tree has depth 1. -/
theorem C5_witness :
    (∃ t, MerkleTree.ofLeaves idHash false [[1], [2], [3]] = .ok t ∧ 1 < t.leafCount ∧
      t.depth = Nat.clog 2 t.leafCount + 1) ∧
    (∃ t, MerkleTree.ofLeaves idHash false [[7]] = .ok t ∧ t.leafCount = 1 ∧ t.depth = 1) :=
  ⟨⟨_, rfl, by decide, (C5_depth idHash [[1], [2], [3]] _ rfl).2 (by decide)⟩,
   ⟨_, rfl, by decide, ((C5_depth idHash [[7]] _ rfl).1 (by decide)).1⟩⟩

/-- **C6**: constructing from an empty list fails with the empty-input
error; on any tree, `getProof(-1)`, `getProof(leafCount)` and `getProof`
with a non-integer index fail (the first two out-of-bounds, the third with
the integer check), as does `getLeaf`; both failure kinds belong to the
spec's `IndexOutOfRange` error category. -/
theorem C6_error_cases (hashFn : HashFn) (t : MerkleTree) (q : ℚ) (hq : q.den ≠ 1) :
    MerkleTree.ofLeaves hashFn false [] = .error .emptyInput ∧
    t.getProof ((-1 : Int) : ℚ) = .error .indexOutOfBounds ∧
    t.getProof ((t.leafCount : Int) : ℚ) = .error .indexOutOfBounds ∧
    t.getProof q = .error .indexNotInteger ∧
    t.getLeaf ((-1 : Int) : ℚ) = .error .indexOutOfBounds ∧
    t.getLeaf ((t.leafCount : Int) : ℚ) = .error .indexOutOfBounds ∧
    t.getLeaf q = .error .indexNotInteger ∧
    MerkleError.indexOutOfBounds.isIndexOutOfRange = true ∧
    MerkleError.indexNotInteger.isIndexOutOfRange = true := by
  refine ⟨rfl, ?_, ?_, ?_, ?_, ?_, ?_, rfl, rfl⟩
  · unfold MerkleTree.getProof
    rw [if_neg (by simp [Rat.den_intCast])]
    rw [if_pos (by rw [Rat.num_intCast]; exact Or.inl (by omega))]
  · unfold MerkleTree.getProof
    rw [if_neg (by simp [Rat.den_intCast])]
    rw [if_pos (by
      rw [Rat.num_intCast]
      exact Or.inr (by simp [MerkleTree.leafCount]))]
  · unfold MerkleTree.getProof
    rw [if_pos hq]
  · unfold MerkleTree.getLeaf
    rw [if_neg (by simp [Rat.den_intCast])]
    rw [if_pos (by rw [Rat.num_intCast]; exact Or.inl (by omega))]
  · unfold MerkleTree.getLeaf
    rw [if_neg (by simp [Rat.den_intCast])]
    rw [if_pos (by
      rw [Rat.num_intCast]
      exact Or.inr (by simp [MerkleTree.leafCount]))]
  · unfold MerkleTree.getLeaf
    rw [if_pos hq]

/-- Witness for C6: empty construction, the non-integer index 3/2 and the
index -1 on a concrete instance. -/
theorem C6_witness :
    MerkleTree.ofLeaves idHash false [] = .error .emptyInput ∧
    (MerkleTree.mk [[1]] [[[1]]] idHash).getProof (mkRat 3 2) = .error .indexNotInteger ∧
    (MerkleTree.mk [[1]] [[[1]]] idHash).getProof ((-1 : Int) : ℚ) =
      .error .indexOutOfBounds := by
  have h := C6_error_cases idHash (MerkleTree.mk [[1]] [[[1]]] idHash) (mkRat 3 2) (by decide)
  exact ⟨h.1, h.2.2.2.1, h.2.1⟩

/-- **C7 counterexample**: the claim fails for the primary `MerkleTree`
class of `src/index.ts`.  Its constructor accepts `MerkleTreeOptions`
(whose type includes `sortPairs`) but its `_buildTree` never reads the
flag: with `sortPairs` enabled and leaves whose hashes are `[2]` and `[1]`
under the identity hash, the parent stored in level 1 is
`hash([2] ++ [1]) = [2, 1]`, not `hash(min ++ max) = [1, 2]`. -/
theorem C7_counterexample :
    ∃ t, MerkleTree.ofLeaves idHash true [[2], [1]] = .ok t ∧
      t.tree.getD 1 [] = [[2, 1]] ∧
      idHash (lexMin [2] [1] ++ lexMax [2] [1]) = [1, 2] ∧
      ([2, 1] : Bytes) ≠ [1, 2] := by
  refine ⟨_, rfl, ?_, ?_, ?_⟩ <;> decide

/-- **C7 amended**: in the implementation that consumes the option —
`buildTree` of `src/core/MerkleTree.ts` via `createParentNode` — enabling
`sortPairs` makes every pairing hash the two children in canonical
lexicographic byte order, `hash(min(left, right) ++ max(left, right))`;
with `sortPairs` disabled each parent is `hash(left ++ right)` in
positional order; a self-pair hashes `hash(last ++ last)` in both modes.
The top-level `src/index.ts` class ignores the option (see the
counterexample). -/
theorem C7_sortPairs_core (hashFn : HashFn) (sortPairs : Bool) (leafHashes : List Bytes)
    (i k : Nat) (lvl parent : List Bytes)
    (hlvl : (coreBuildTree hashFn sortPairs leafHashes).getD i [] = lvl)
    (hparent : (coreBuildTree hashFn sortPairs leafHashes).getD (i + 1) [] = parent)
    (hi : i + 1 < (coreBuildTree hashFn sortPairs leafHashes).length) :
    (2 * k + 1 < lvl.length →
      parent.getD k [] =
        if sortPairs then
          hashFn (lexMin (lvl.getD (2 * k) []) (lvl.getD (2 * k + 1) []) ++
            lexMax (lvl.getD (2 * k) []) (lvl.getD (2 * k + 1) []))
        else hashFn (lvl.getD (2 * k) [] ++ lvl.getD (2 * k + 1) [])) ∧
    (2 * k + 1 = lvl.length →
      parent.getD k [] = hashFn (lvl.getD (2 * k) [] ++ lvl.getD (2 * k) [])) := by
  subst hlvl hparent
  have hch : Chain (createParentHash hashFn sortPairs)
      (coreBuildTree hashFn sortPairs leafHashes) :=
    chain_levelsFrom (createParentHash hashFn sortPairs) leafHashes
  rw [hch.getD_succ i hi]
  have hpair := pairUp_getD (createParentHash hashFn sortPairs)
    ((coreBuildTree hashFn sortPairs leafHashes).getD i []) k
  constructor
  · intro h
    rw [hpair.1 h]
    cases sortPairs
    · rw [createParentHash_false]
      simp
    · rw [createParentHash_true]
      simp
  · intro h
    rw [hpair.2 h]
    exact createParentHash_self hashFn sortPairs _

/-- Witness for the amended C7: the core builder with `sortPairs` on two
leaves `[2]`, `[1]` stores the sorted parent `[1, 2]`. -/
theorem C7_witness :
    2 * 0 + 1 < ([[2], [1]] : List Bytes).length ∧
    ([[1, 2]] : List Bytes).getD 0 [] =
      (if true then
        idHash (lexMin (([[2], [1]] : List Bytes).getD 0 [])
            (([[2], [1]] : List Bytes).getD 1 []) ++
          lexMax (([[2], [1]] : List Bytes).getD 0 [])
            (([[2], [1]] : List Bytes).getD 1 []))
      else idHash (([[2], [1]] : List Bytes).getD 0 [] ++
        ([[2], [1]] : List Bytes).getD 1 [])) :=
  ⟨by decide, (C7_sortPairs_core idHash true [[2], [1]] 0 0 [[2], [1]] [[1, 2]]
      (by decide) (by decide) (by decide)).1 (by decide)⟩

/-- **C8**: deserialization does not check that the upper levels are
consistent with the leaves under the hash function.  A structurally valid
input whose level-1 hash `0102` is not the hash of the concatenation of its
children (`aa ++ bb`, whose identity-hash is `aabb`) decodes successfully,
and the returned tree carries the inconsistent hash. -/
theorem C8_no_consistency_check :
    ∃ t, MerkleTree.fromSerialized ⟨["aa", "bb"], [["aa", "bb"], ["0102"]]⟩ idHash = .ok t ∧
      t.leaves = [[0xaa], [0xbb]] ∧
      t.tree.getD 1 [] = [[1, 2]] ∧
      idHash ((t.tree.getD 0 []).getD 0 [] ++ (t.tree.getD 0 []).getD 1 []) ≠
        (t.tree.getD 1 []).getD 0 [] := by
  refine ⟨_, rfl, ?_, ?_, ?_⟩ <;> decide

/-- **C9**: the constructor's non-empty invariant is not preserved by
deserialization.  The structurally valid input `{ leaves: [], tree: [[]] }`
decodes successfully into a tree with `leafCount = 0` whose root accessor
yields no hash value (JavaScript `undefined`). -/
theorem C9_empty_tree_deserializes :
    ∃ t, MerkleTree.fromSerialized ⟨[], [[]]⟩ idHash = .ok t ∧
      t.leafCount = 0 ∧ t.root = none :=
  ⟨_, rfl, rfl, rfl⟩

/-- **C10**: a single-leaf tree has the empty proof for index 0, and
verifying an empty proof performs no hashing: for all byte buffers of any
lengths, the result is `.ok` of the byte-for-byte comparison of the given
leaf hash with the given root (an expression independent of the hash
function). -/
theorem C10_empty_proof (hashFn : HashFn) (raw : Bytes) (t : MerkleTree)
    (ht : MerkleTree.ofLeaves hashFn false [raw] = .ok t) (leafHash root : Bytes) :
    t.getProof ((0 : Nat) : ℚ) = .ok [] ∧
    MerkleTree.verifyProof leafHash [] root hashFn = .ok (decide (leafHash = root)) := by
  obtain ⟨hl, htr, -⟩ := ofLeaves_ok hashFn false [raw] t ht
  constructor
  · have h0 : (0 : Nat) < t.leaves.length := by
      rw [hl]
      simp
    rw [getProof_nat t 0 h0, htr]
    rw [show levelsFrom (fun a b => hashFn (a ++ b)) (List.map hashFn [raw]) = [] from by
      rw [levelsFrom_eq]
      simp]
    rfl
  · rfl

/-- Witness for C10: a concrete single-leaf tree yields the empty proof,
and the empty proof verifies `[3]` against root `[3]` and refutes nothing
but the comparison itself. -/
theorem C10_witness :
    ∃ t, MerkleTree.ofLeaves idHash false [[9]] = .ok t ∧
      t.getProof ((0 : Nat) : ℚ) = .ok [] ∧
      MerkleTree.verifyProof [3] [] [3] idHash = .ok (decide (([3] : Bytes) = [3])) :=
  ⟨_, rfl, (C10_empty_proof idHash [9] _ rfl [3] [3]).1,
    (C10_empty_proof idHash [9] _ rfl [3] [3]).2⟩
